import Mathlib

/-!
Verification of the `inference` likelihood/profiling library.

The Python sources (`inference/likelihood.py`, `aptinf/optimizer.py`) are
shallowly embedded below: Python `dict`s become association lists with
overwrite-on-insert semantics, Python `set`s become `Finset String`,
floats become `ℝ` where `exp` is involved and `ℚ` elsewhere, and the
external numerical optimizers (iminuit / scipy) become abstract run
outcomes supplied as parameters.
-/

set_option maxHeartbeats 1000000

namespace Inference

/-- Python `dict` as an association list: lookup returns the first
matching key (keys are kept distinct by `dinsert`). -/
def dlookup {α : Type} (d : List (String × α)) (k : String) : Option α :=
  match d with
  | [] => none
  | (k', v) :: t => if k' = k then some v else dlookup t k

/-- Python `d[k] = v`: overwrite the existing entry for `k` in place, or
append a fresh entry at the end (insertion order is preserved, as in a
Python dict). -/
def dinsert {α : Type} (d : List (String × α)) (k : String) (v : α) :
    List (String × α) :=
  match d with
  | [] => [(k, v)]
  | (k', v') :: t => if k' = k then (k', v) :: t else (k', v') :: dinsert t k v

/-- Python `d.update(e)`: insert every entry of `e` into `d`, in order. -/
def dupdate {α : Type} (d e : List (String × α)) : List (String × α) :=
  e.foldl (fun acc kv => dinsert acc kv.1 kv.2) d

/-- Keys of a dict. -/
def dkeys {α : Type} (d : List (String × α)) : List String :=
  d.map Prod.fst

/- ### Optimizer (`aptinf/optimizer.py`)

`minimize(func, x0, method)` dispatches on `method`:
`'minuit'` runs iminuit's migrad and raises `RuntimeError("Minuit minimizer
fails!")` when the result is not `valid`; `'scipy'` runs scipy's Powell and
raises `RuntimeError("Scipy minimizer fails!")` when `success` is false;
`'sequence'` loops over `['minuit', 'scipy']` inside `try: ... except: pass`
and raises `RuntimeError("All the minimizers fail!")` when the loop falls
through.  The external numerical engines are modelled by their observable
outcome: either a raised error, or a triple (validity flag, solution
vector, objective value). -/

/-- A raised Python exception, by kind and message. -/
inductive PyErr : Type
  | runtimeError (msg : String)
  | objectiveError (msg : String)
  | attributeError (msg : String)
  deriving DecidableEq

/-- Outcome of one external optimizer engine run on the given objective and
start point: a raised error, or (valid/success flag, x, y). -/
def EngineRun : Type := Except PyErr (Bool × List ℚ × ℚ)

/-- The `method == 'minuit'` branch: propagate a raised error; raise
`RuntimeError` when the minimizer reports an invalid result; otherwise
return `(x, y)`. -/
def runMinuit (m : EngineRun) : Except PyErr (List ℚ × ℚ) :=
  match m with
  | .error e => .error e
  | .ok (valid, x, y) =>
      if valid then .ok (x, y)
      else .error (.runtimeError "Minuit minimizer fails!")

/-- The `method == 'scipy'` branch: propagate a raised error; raise
`RuntimeError` when `success` is false; otherwise return `(x, y)`. -/
def runScipy (s : EngineRun) : Except PyErr (List ℚ × ℚ) :=
  match s with
  | .error e => .error e
  | .ok (success, x, y) =>
      if success then .ok (x, y)
      else .error (.runtimeError "Scipy minimizer fails!")

/-- The `method == 'sequence'` branch of `minimize`: try `'minuit'`, then
`'scipy'`, each inside `try: ... except: pass` (a bare `except`), raising
`RuntimeError("All the minimizers fail!")` when both attempts raise. -/
def minimizeSequence (m s : EngineRun) : Except PyErr (List ℚ × ℚ) :=
  match runMinuit m with
  | .ok r => .ok r
  | .error _ =>
      match runScipy s with
      | .ok r => .ok r
      | .error _ => .error (.runtimeError "All the minimizers fail!")

/- ### Likelihood aggregation (`inference/likelihood.py`) -/

/-- Per-key soft boundary term of `Likelihood._get_param_bound_aux_llh`:
`-exp(lo - v)` is added when `v < lo` and `-exp(v - hi)` is added when
`v > hi` (two independent `if` statements in the source). -/
noncomputable def penaltyKey (v lo hi : ℝ) : ℝ :=
  (if v < lo then -Real.exp (lo - v) else 0) +
  (if v > hi then -Real.exp (v - hi) else 0)

/-- `Likelihood._get_param_bound_aux_llh(param)`: starting from 0, loop
over the entries of `param` and add the per-key boundary term for every
key that has a declared range. -/
noncomputable def auxLLH (pr : List (String × ℝ × ℝ)) (flat : List (String × ℝ)) : ℝ :=
  flat.foldl
    (fun acc kv =>
      match dlookup pr kv.1 with
      | some r => acc + penaltyKey kv.2 r.1 r.2
      | none => acc)
    0

/-- Spec-side per-key boundary penalty, with the three mutually exclusive
cases exactly as the specification words them: `-exp(lo - v)` if `v < lo`,
`-exp(v - hi)` if `v > hi`, and `0` otherwise. -/
noncomputable def specPenaltyKey (v lo hi : ℝ) : ℝ :=
  if v < lo then -Real.exp (lo - v)
  else if v > hi then -Real.exp (v - hi)
  else 0

/-- Spec-side boundary penalty: the sum, over every key present in both
`flat` and the range dict, of the per-key penalty. -/
noncomputable def specBoundaryPenalty (pr : List (String × ℝ × ℝ))
    (flat : List (String × ℝ)) : ℝ :=
  (flat.map
    (fun kv =>
      match dlookup pr kv.1 with
      | some r => specPenaltyKey kv.2 r.1 r.2
      | none => 0)).sum

/-- `Likelihood.loglikelihood(param)`: the boundary auxiliary term plus the
sum of the terms' log-likelihood contributions (each term is abstracted as
a function of the flat parameter dict). -/
noncomputable def loglikelihoodL (terms : List (List (String × ℝ) → ℝ))
    (pr : List (String × ℝ × ℝ)) (flat : List (String × ℝ)) : ℝ :=
  auxLLH pr flat + (terms.map (fun t => t flat)).sum

/- ### `Likelihood.set_likelihood` -/

/-- One entry of the config list handed to `set_likelihood`: its `tag`, the
model instance built from `item['model']` and the remap (identified by a
model id), and that model's `param_needed` set. -/
structure TermSpec : Type where
  tag : String
  modelId : ℕ
  paramNeeded : Finset String

/-- `Likelihood.set_likelihood(config)`: starting from empty
`likelihood_entries` and `param_needed`, loop over the config, storing each
model under its tag (`self.likelihood_entries[tag] = model`, a plain dict
assignment) and unioning its `param_needed` in. -/
def setLikelihoodE (config : List TermSpec) : List (String × ℕ) × Finset String :=
  config.foldl
    (fun acc it => (dinsert acc.1 it.tag it.modelId, acc.2 ∪ it.paramNeeded))
    ([], ∅)

/- ### `CombinedProfiledLikelihood.__init__` -/

/-- The state of one input `ProfiledLikelihood` that the combination reads:
its `param_needed` set and `param_range` dict (rationals stand in for the
Python floats of the bounds). -/
structure Lik : Type where
  paramNeeded : Finset String
  paramRange : List (String × ℚ × ℚ)

/-- Body of the inner `param_range` loop of
`CombinedProfiledLikelihood.__init__`: if the key is already present take
`(max lowers, min uppers)`, otherwise store the member's range. -/
def addRange (acc : List (String × ℚ × ℚ)) (kv : String × ℚ × ℚ) :
    List (String × ℚ × ℚ) :=
  match dlookup acc kv.1 with
  | some r => dinsert acc kv.1 (max r.1 kv.2.1, min r.2 kv.2.2)
  | none => dinsert acc kv.1 kv.2

/-- `CombinedProfiledLikelihood.__init__(*likelihoods)`: union the members'
`param_needed`, and fold every member's `param_range` through `addRange`. -/
def combineLikelihoods (ls : List Lik) : Lik :=
  { paramNeeded := ls.foldl (fun a l => a ∪ l.paramNeeded) ∅,
    paramRange := ls.foldl (fun a l => l.paramRange.foldl addRange a) [] }

/-- The ranges supplied for key `k` by the members, in traversal order. -/
def collectRanges (ls : List Lik) (k : String) : List (ℚ × ℚ) :=
  ((ls.flatMap (·.paramRange)).filter (fun kv => kv.1 = k)).map Prod.snd

/-- Sequential left intersection of a list of ranges: `none` on the empty
list, else fold `(max lows, min highs)` from the first range. -/
def interAll (rs : List (ℚ × ℚ)) : Option (ℚ × ℚ) :=
  match rs with
  | [] => none
  | r :: t => some (t.foldl (fun a p => (max a.1 p.1, min a.2 p.2)) r)

/- ### `ProfiledLikelihood` -/

/-- `ProfiledLikelihood._make_param(*param_dicts)`: start from `{}` and
`update` with each dict in order, so later dicts win on shared keys. -/
def makeParam {α : Type} (ds : List (List (String × α))) : List (String × α) :=
  ds.foldl dupdate []

/-- The closure installed by `ProfiledLikelihood.set_data(data)`: evaluate
the boundary auxiliary term and the model terms on
`_make_param(data, param)`. -/
noncomputable def setDataLLH (terms : List (List (String × ℝ) → ℝ))
    (pr : List (String × ℝ × ℝ)) (data : List (String × ℝ))
    (param : List (String × ℝ)) : ℝ :=
  auxLLH pr (makeParam [data, param]) +
    (terms.map (fun t => t (makeParam [data, param]))).sum

/-- Insertion of one pair into a key-sorted pair list (models one step of
the `np.argsort` reordering of keys and guesses). -/
def insertByKey {α : Type} (p : String × α) :
    List (String × α) → List (String × α)
  | [] => [p]
  | q :: t => if p.1 ≤ q.1 then p :: q :: t else q :: insertByKey p t

/-- Sorting of the profiled guess dict by key, the effect of
`np.argsort(to_array(keys))` applied to both keys and guess values. -/
def sortByKey {α : Type} : List (String × α) → List (String × α)
  | [] => []
  | p :: t => insertByKey p (sortByKey t)

/-- `ProfiledLikelihood.profiled_loglikelihood(param, param_profiled_guess)`
returning the `(max_llh, bestfit)` pair of the `return_bestfit=True` path.
When the guess dict is empty, the result is `(loglikelihood(param), {})`;
otherwise the keys are sorted, a closure overlaying the profiled values on
a deep copy of `param` is built and handed to the optimizer `opt`
(`maximize`, abstracted as a parameter since it drives the external
numerical engines). -/
def profiledLoglikelihood {α β : Type} [DecidableEq α]
    (llh : List (String × α) → β)
    (opt : (List α → β) → List α → List α × β)
    (param guess : List (String × α)) : β × List (String × α) :=
  if guess = [] then (llh param, [])
  else
    let sorted := sortByKey guess
    let keys := sorted.map Prod.fst
    let f := fun arr => llh (dupdate param (List.zip keys arr))
    let xy := opt f (sorted.map Prod.snd)
    (xy.2, List.zip keys xy.1)

/-- The only `ProfiledLikelihood` attribute the `chi2` path reads:
`max_loglikelihood`, which exists only after `set_max_loglikelihood` has
run (`none` models the attribute being absent). -/
structure PLState : Type where
  maxLoglikelihood : Option ℚ

/-- `ProfiledLikelihood.set_max_loglikelihood(param_guess)`: profile over
all free parameters from an empty fixed dict and cache the maximum. -/
def setMaxLoglikelihood (_st : PLState)
    (llh : List (String × ℚ) → ℚ)
    (opt : (List ℚ → ℚ) → List ℚ → List ℚ × ℚ)
    (paramGuess : List (String × ℚ)) : PLState × List (String × ℚ) :=
  let r := profiledLoglikelihood llh opt [] paramGuess
  ({ maxLoglikelihood := some r.1 }, r.2)

/-- `ProfiledLikelihood.chi2(param, param_profiled_guess)` (the
`return_bestfit=False` path): reading `self.max_loglikelihood` raises
`AttributeError` when the attribute has never been set; otherwise the
result is `2 * (max_loglikelihood - profiled_loglikelihood(...))`. -/
def chi2 (st : PLState)
    (llh : List (String × ℚ) → ℚ)
    (opt : (List ℚ → ℚ) → List ℚ → List ℚ × ℚ)
    (param guess : List (String × ℚ)) : Except PyErr ℚ :=
  match st.maxLoglikelihood with
  | none => .error (.attributeError "max_loglikelihood")
  | some m => .ok (2 * (m - (profiledLoglikelihood llh opt param guess).1))

/- ### Heap model for the profiling closure (frame property)

`profiled_loglikelihood`'s inner closure `f` runs
`x = deepcopy(param); x.update({...}); return self.loglikelihood(x)`.
To state that the caller's dict object is never mutated, dict objects live
in an explicit heap of cells and `deepcopy` allocates a fresh cell, exactly
as the interpreter does. -/

/-- A heap of Python dict objects; references are cell indices. -/
structure Heap (α : Type) : Type where
  cells : List (List (String × α))

/-- Dereference a dict object. -/
def Heap.get {α : Type} (h : Heap α) (r : ℕ) : List (String × α) :=
  h.cells.getD r []

/-- Overwrite a dict object in place (`x.update` mutates the object). -/
def Heap.set {α : Type} (h : Heap α) (r : ℕ) (d : List (String × α)) : Heap α :=
  ⟨h.cells.set r d⟩

/-- `deepcopy`: allocate a fresh cell holding a copy of the contents. -/
def Heap.alloc {α : Type} (h : Heap α) (d : List (String × α)) : Heap α × ℕ :=
  (⟨h.cells ++ [d]⟩, h.cells.length)

/-- One optimizer probe of the closure `f(param_profiled_array)`:
`x = deepcopy(param)`, `x.update(dict(zip(keys, arr)))`,
`return self.loglikelihood(x)`. Returns the heap after the call and the
value fed back to the optimizer. -/
def objectiveCall {α β : Type} (llh : List (String × α) → β)
    (h : Heap α) (pref : ℕ) (keys : List String) (arr : List α) :
    Heap α × β :=
  let a := h.alloc (h.get pref)
  let h2 := a.1.set a.2 (dupdate (a.1.get a.2) (List.zip keys arr))
  (h2, llh (h2.get a.2))

/-- The optimizer's whole interaction with the closure: some finite
sequence of probe vectors, each evaluated by `objectiveCall`. -/
def runOptimizerCalls {α β : Type} (llh : List (String × α) → β)
    (h : Heap α) (pref : ℕ) (keys : List String) :
    List (List α) → Heap α
  | [] => h
  | arr :: rest =>
      runOptimizerCalls llh (objectiveCall llh h pref keys arr).1 pref keys rest

/-! ## Shared lemmas about the dict embedding -/

theorem dlookup_dinsert_self {α : Type} (d : List (String × α)) (k : String) (v : α) :
    dlookup (dinsert d k v) k = some v := by
  induction d with
  | nil => simp [dinsert, dlookup]
  | cons p t ih =>
      by_cases hk : p.1 = k
      · simp [dinsert, dlookup, hk]
      · simp [dinsert, dlookup, hk, ih]

theorem dlookup_dinsert_ne {α : Type} (d : List (String × α)) (k' k : String) (v : α)
    (h : k' ≠ k) : dlookup (dinsert d k' v) k = dlookup d k := by
  induction d with
  | nil => simp [dinsert, dlookup, h]
  | cons p t ih =>
      by_cases hk : p.1 = k'
      · simp [dinsert, dlookup, hk, h]
      · simp only [dinsert, hk, if_false]
        by_cases hp : p.1 = k
        · simp [dlookup, hp]
        · simp [dlookup, hp, ih]

theorem dlookup_mem {α : Type} {d : List (String × α)} {k : String} {v : α}
    (h : dlookup d k = some v) : (k, v) ∈ d := by
  induction d with
  | nil => simp [dlookup] at h
  | cons p t ih =>
      by_cases hk : p.1 = k
      · simp only [dlookup, hk, if_true] at h
        cases h
        subst hk
        exact List.mem_cons_self p t
      · simp only [dlookup, hk, if_false] at h
        exact List.mem_cons_of_mem _ (ih h)

theorem dlookup_dupdate {α : Type} (d e : List (String × α)) (k : String)
    (he : (dkeys e).Nodup) :
    dlookup (dupdate d e) k = (dlookup e k).orElse (fun _ => dlookup d k) := by
  induction e generalizing d with
  | nil => simp [dupdate, dlookup]
  | cons p t ih =>
      simp only [dkeys, List.map_cons, List.nodup_cons] at he
      simp only [dupdate, List.foldl_cons] at *
      rw [ih (dinsert d p.1 p.2) he.2]
      by_cases hk : p.1 = k
      · subst hk
        have ht : dlookup t p.1 = none := by
          cases hl : dlookup t p.1 with
          | none => rfl
          | some w =>
              exact absurd (List.mem_map_of_mem Prod.fst (dlookup_mem hl)) he.1
        simp [dlookup, ht, dlookup_dinsert_self]
      · simp [dlookup, hk, dlookup_dinsert_ne _ _ _ _ hk]

theorem dinsert_length_of_absent {α : Type} (d : List (String × α)) (k : String) (v : α)
    (h : dlookup d k = none) : (dinsert d k v).length = d.length + 1 := by
  induction d with
  | nil => simp [dinsert]
  | cons p t ih =>
      by_cases hk : p.1 = k
      · simp [dlookup, hk] at h
      · simp only [dlookup, hk, if_false] at h
        simp [dinsert, hk, ih h]

theorem mem_foldl_union {γ : Type} (f : γ → Finset String) (config : List γ) :
    ∀ (pn : Finset String) (x : String),
      x ∈ config.foldl (fun a it => a ∪ f it) pn ↔
        x ∈ pn ∨ ∃ it ∈ config, x ∈ f it := by
  induction config with
  | nil => intro pn x; simp
  | cons it0 t ih =>
      intro pn x
      simp only [List.foldl_cons]
      rw [ih]
      simp only [Finset.mem_union, List.mem_cons]
      constructor
      · rintro (⟨h | h⟩ | ⟨it, hit, hx⟩)
        · exact Or.inl h
        · exact Or.inr ⟨it0, Or.inl rfl, h⟩
        · exact Or.inr ⟨it, Or.inr hit, hx⟩
      · rintro (h | ⟨it, h | hit, hx⟩)
        · exact Or.inl (Or.inl h)
        · exact Or.inl (Or.inr (h ▸ hx))
        · exact Or.inr ⟨it, hit, hx⟩

/-! ## Claims C1 and C8: the optimizer chain -/

/-- C1: with the `'sequence'` (chain) strategy, `minimize` first tries the
Minuit strategy — a run that returns an invalid result is a failure
(`RuntimeError`), as is a raised error — and on primary failure returns
the scipy-Powell fallback's result; when both strategies fail it raises
`RuntimeError("All the minimizers fail!")` (the `AllOptimizersFailed`
of the specification). -/
theorem minimize_chain_fallback (m s : EngineRun) :
    (∀ x y, m = .ok (false, x, y) →
      runMinuit m = .error (.runtimeError "Minuit minimizer fails!")) ∧
    (∀ r, runMinuit m = .ok r → minimizeSequence m s = .ok r) ∧
    (∀ e r, runMinuit m = .error e → runScipy s = .ok r →
      minimizeSequence m s = .ok r) ∧
    (∀ e e', runMinuit m = .error e → runScipy s = .error e' →
      minimizeSequence m s = .error (.runtimeError "All the minimizers fail!")) := by
  refine ⟨?_, ?_, ?_, ?_⟩
  · intro x y hm
    subst hm
    simp [runMinuit]
  · intro r h
    simp [minimizeSequence, h]
  · intro e r h1 h2
    simp [minimizeSequence, h1, h2]
  · intro e e' h1 h2
    simp [minimizeSequence, h1, h2]

/-- Witness for C1: a concrete invalid Minuit run falls through to a
successful scipy run, whose result is returned. -/
theorem minimize_chain_fallback_witness :
    minimizeSequence (Except.ok (false, [0], 0)) (Except.ok (true, [1], 2)) =
      Except.ok ([1], 2) :=
  (minimize_chain_fallback (Except.ok (false, [0], 0)) (Except.ok (true, [1], 2))).2.2.1
    (.runtimeError "Minuit minimizer fails!") ([1], 2) rfl rfl

/-- C8 counterexample: a non-optimizer error raised during the primary
strategy's run (e.g. the objective raising about a missing parameter) is
consumed by the chain's bare `except:` — the fallback's result is returned
— instead of being re-raised unmodified as the claim states. -/
theorem chain_swallows_objective_error :
    minimizeSequence (Except.error (.objectiveError "missing parameter"))
        (Except.ok (true, [1], 2)) = Except.ok ([1], 2) ∧
    minimizeSequence (Except.error (.objectiveError "missing parameter"))
        (Except.ok (true, [1], 2)) ≠
      Except.error (.objectiveError "missing parameter") := by
  constructor
  · rfl
  · intro h
    cases h

/-- C8 amended: the chain's bare `except:` catches every error raised
during a strategy's run — optimizer-specific or not — and falls through;
no strategy error is ever re-raised: the only error the chain itself can
produce is `RuntimeError("All the minimizers fail!")`. -/
theorem chain_catches_every_error (m s : EngineRun) :
    (∀ e r, runMinuit m = .error e → runScipy s = .ok r →
      minimizeSequence m s = .ok r) ∧
    (∀ e, minimizeSequence m s = .error e →
      e = .runtimeError "All the minimizers fail!") := by
  constructor
  · intro e r h1 h2
    simp [minimizeSequence, h1, h2]
  · intro e h
    unfold minimizeSequence at h
    cases hm : runMinuit m with
    | ok r => rw [hm] at h; cases h
    | error e1 =>
        rw [hm] at h
        cases hs : runScipy s with
        | ok r => rw [hs] at h; cases h
        | error e2 =>
            rw [hs] at h
            cases h
            rfl

/-- Witness for C8 (amended): the concrete objective-raised error of the
counterexample is caught and the fallback's result returned. -/
theorem chain_catches_every_error_witness :
    minimizeSequence (Except.error (.objectiveError "missing parameter"))
        (Except.ok (true, [3], 4)) = Except.ok ([3], 4) :=
  (chain_catches_every_error (Except.error (.objectiveError "missing parameter"))
    (Except.ok (true, [3], 4))).1 (.objectiveError "missing parameter") ([3], 4) rfl rfl

/-! ## Claims C2 and C3: the boundary penalty -/

theorem penaltyKey_eq_spec (v lo hi : ℝ) (h : lo ≤ hi) :
    penaltyKey v lo hi = specPenaltyKey v lo hi := by
  unfold penaltyKey specPenaltyKey
  rcases lt_or_le v lo with h1 | h1
  · rw [if_pos h1, if_pos h1, if_neg (by linarith : ¬ v > hi)]
    ring
  · rw [if_neg (not_lt.mpr h1), if_neg (not_lt.mpr h1)]
    rcases lt_or_le hi v with h2 | h2
    · rw [if_pos h2]
      ring
    · rw [if_neg (not_lt.mpr h2)]
      ring

theorem foldl_add_eq_sum {γ : Type} (l : List γ) (g : γ → ℝ) :
    ∀ c : ℝ, l.foldl (fun a x => a + g x) c = c + (l.map g).sum := by
  induction l with
  | nil => intro c; simp
  | cons x t ih =>
      intro c
      simp only [List.foldl_cons, List.map_cons, List.sum_cons]
      rw [ih (c + g x)]
      ring

/-- C2: the boundary auxiliary term of `_get_param_bound_aux_llh` equals
the specification's boundary penalty — the sum, over every key present in
both `flat` and `param_range` with bound `(lo, hi)`, of `-exp(lo - v)`
when `v < lo`, `-exp(v - hi)` when `v > hi`, and `0` otherwise
(`lo ≤ hi` assumed for every declared range) — and `loglikelihood` is this
penalty plus the sum of the terms' contributions, not a replacement. -/
theorem boundary_penalty_spec (terms : List (List (String × ℝ) → ℝ))
    (pr : List (String × ℝ × ℝ)) (flat : List (String × ℝ))
    (hpr : ∀ kv ∈ pr, kv.2.1 ≤ kv.2.2) :
    auxLLH pr flat = specBoundaryPenalty pr flat ∧
    loglikelihoodL terms pr flat =
      specBoundaryPenalty pr flat + (terms.map (fun t => t flat)).sum := by
  have haux : auxLLH pr flat = specBoundaryPenalty pr flat := by
    unfold auxLLH specBoundaryPenalty
    have hstep :
        (fun (acc : ℝ) (kv : String × ℝ) =>
            match dlookup pr kv.1 with
            | some r => acc + penaltyKey kv.2 r.1 r.2
            | none => acc) =
          fun (acc : ℝ) (kv : String × ℝ) =>
            acc + match dlookup pr kv.1 with
                  | some r => specPenaltyKey kv.2 r.1 r.2
                  | none => 0 := by
      funext acc kv
      cases hl : dlookup pr kv.1 with
      | none => simp
      | some r =>
          simp only []
          rw [penaltyKey_eq_spec kv.2 r.1 r.2 (hpr (kv.1, r) (dlookup_mem hl))]
    rw [hstep, foldl_add_eq_sum, zero_add]
  exact ⟨haux, by rw [loglikelihoodL, haux]⟩

/-- Witness for C2: a one-range, one-term instance with the parameter
outside its bound. -/
theorem boundary_penalty_spec_witness :
    (∀ kv ∈ [("a", ((0 : ℝ), (1 : ℝ)))], kv.2.1 ≤ kv.2.2) ∧
    auxLLH [("a", ((0 : ℝ), 1))] [("a", (2 : ℝ))] =
      specBoundaryPenalty [("a", ((0 : ℝ), 1))] [("a", (2 : ℝ))] := by
  have hpr : ∀ kv ∈ [("a", ((0 : ℝ), (1 : ℝ)))], kv.2.1 ≤ kv.2.2 := by
    intro kv hkv
    rw [List.mem_singleton] at hkv
    subst hkv
    exact zero_le_one
  exact ⟨hpr,
    (boundary_penalty_spec [] [("a", ((0 : ℝ), 1))] [("a", (2 : ℝ))] hpr).1⟩

/-- C3 counterexample: the per-key penalty with bound `(0, 1)` is NOT
continuous at the bound `0`: its value at `0` is `0`, but immediately
outside it is below `-1` (the claim asserts continuity at the bounds). -/
theorem penaltyKey_discontinuous :
    ¬ ContinuousAt (fun v => penaltyKey v 0 1) 0 := by
  intro hc
  rw [Metric.continuousAt_iff] at hc
  obtain ⟨δ, hδ, hb⟩ := hc 1 one_pos
  have hx : dist (-(δ / 2)) (0 : ℝ) < δ := by
    rw [Real.dist_eq, sub_zero, abs_neg, abs_of_pos (by linarith)]
    linarith
  have h2 := hb hx
  have hv : penaltyKey (-(δ / 2)) 0 1 = -Real.exp (δ / 2) := by
    unfold penaltyKey
    rw [if_pos (by linarith : -(δ / 2) < 0),
      if_neg (by intro h; linarith : ¬ -(δ / 2) > 1)]
    norm_num
  have hv0 : penaltyKey 0 0 1 = 0 := by
    unfold penaltyKey
    rw [if_neg (lt_irrefl 0), if_neg (by norm_num : ¬ (0 : ℝ) > 1)]
    norm_num
  simp only [hv, hv0] at h2
  rw [Real.dist_eq, sub_zero, abs_neg, abs_of_pos (Real.exp_pos _)] at h2
  have := Real.add_one_le_exp (δ / 2)
  linarith

/-- C3 amended: with `lo ≤ hi` the per-key penalty is zero everywhere on
`[lo, hi]` (bounds included), strictly below `-1` (hence strictly
negative) anywhere outside, and strictly decreasing as the value moves
further outside either bound; it is a soft exponential wall but NOT
continuous at the bounds — just outside them it already lies below `-1`,
a hard jump. -/
theorem penaltyKey_soft_wall (lo hi : ℝ) (h : lo ≤ hi) :
    (∀ v, lo ≤ v → v ≤ hi → penaltyKey v lo hi = 0) ∧
    (∀ v, v < lo → penaltyKey v lo hi < -1) ∧
    (∀ v, hi < v → penaltyKey v lo hi < -1) ∧
    (∀ v w, w < v → v < lo → penaltyKey w lo hi < penaltyKey v lo hi) ∧
    (∀ v w, hi < v → v < w → penaltyKey w lo hi < penaltyKey v lo hi) := by
  refine ⟨?_, ?_, ?_, ?_, ?_⟩
  · intro v h1 h2
    unfold penaltyKey
    rw [if_neg (not_lt.mpr h1), if_neg (not_lt.mpr h2)]
    ring
  · intro v hv
    unfold penaltyKey
    rw [if_pos hv, if_neg (by intro hx; linarith : ¬ v > hi)]
    have := Real.add_one_le_exp (lo - v)
    linarith
  · intro v hv
    unfold penaltyKey
    rw [if_neg (by intro hx; linarith : ¬ v < lo), if_pos hv]
    have := Real.add_one_le_exp (v - hi)
    linarith
  · intro v w hwv hv
    unfold penaltyKey
    rw [if_pos hv, if_neg (by intro hx; linarith : ¬ v > hi),
      if_pos (by linarith : w < lo), if_neg (by intro hx; linarith : ¬ w > hi)]
    have := Real.exp_lt_exp.mpr (by linarith : lo - v < lo - w)
    linarith
  · intro v w hv hvw
    unfold penaltyKey
    rw [if_neg (by intro hx; linarith : ¬ v < lo), if_pos hv,
      if_neg (by intro hx; linarith : ¬ w < lo), if_pos (by linarith : w > hi)]
    have := Real.exp_lt_exp.mpr (by linarith : v - hi < w - hi)
    linarith

/-- Witness for C3 (amended): the bound `(0, 1)` at the interior point
`1/2` gives penalty `0`. -/
theorem penaltyKey_soft_wall_witness :
    (0 : ℝ) ≤ 1 ∧ penaltyKey (1 / 2) 0 1 = 0 :=
  ⟨zero_le_one,
    (penaltyKey_soft_wall 0 1 zero_le_one).1 (1 / 2) one_half_pos.le one_half_lt_one.le⟩

/-! ## Claim C6: `set_likelihood` and duplicate tags -/

theorem setLikelihoodE_fst (config : List TermSpec) :
    ∀ (es : List (String × ℕ)) (pn : Finset String),
      (config.foldl
          (fun acc it => (dinsert acc.1 it.tag it.modelId, acc.2 ∪ it.paramNeeded))
          (es, pn)).1 =
        config.foldl (fun a it => dinsert a it.tag it.modelId) es := by
  induction config with
  | nil => intro es pn; rfl
  | cons it t ih => intro es pn; simp only [List.foldl_cons]; exact ih _ _

theorem setLikelihoodE_snd (config : List TermSpec) :
    ∀ (es : List (String × ℕ)) (pn : Finset String),
      (config.foldl
          (fun acc it => (dinsert acc.1 it.tag it.modelId, acc.2 ∪ it.paramNeeded))
          (es, pn)).2 =
        config.foldl (fun a it => a ∪ it.paramNeeded) pn := by
  induction config with
  | nil => intro es pn; rfl
  | cons it t ih => intro es pn; simp only [List.foldl_cons]; exact ih _ _

theorem dlookup_foldl_dinsert_of_fresh (config : List TermSpec) (k : String) :
    ∀ es : List (String × ℕ), (∀ it ∈ config, it.tag ≠ k) →
      dlookup (config.foldl (fun a it => dinsert a it.tag it.modelId) es) k =
        dlookup es k := by
  induction config with
  | nil => intro es _; rfl
  | cons it t ih =>
      intro es hne
      simp only [List.foldl_cons]
      rw [ih _ fun x hx => hne x (List.mem_cons_of_mem _ hx)]
      exact dlookup_dinsert_ne es it.tag k it.modelId (hne it (List.mem_cons_self it t))

theorem foldl_dinsert_registers (config : List TermSpec) :
    ∀ es : List (String × ℕ),
      (config.map (·.tag)).Nodup →
      (∀ it ∈ config, dlookup es it.tag = none) →
      (config.foldl (fun a it => dinsert a it.tag it.modelId) es).length =
          es.length + config.length ∧
        ∀ it ∈ config,
          dlookup (config.foldl (fun a it => dinsert a it.tag it.modelId) es) it.tag =
            some it.modelId := by
  induction config with
  | nil => intro es _ _; simp
  | cons it0 t ih =>
      intro es hnodup hfree
      simp only [List.map_cons, List.nodup_cons] at hnodup
      have hfree0 : dlookup es it0.tag = none := hfree it0 (List.mem_cons_self it0 t)
      have hne : ∀ it ∈ t, it.tag ≠ it0.tag := by
        intro it hit heq
        exact hnodup.1 (heq ▸ List.mem_map_of_mem (·.tag) hit)
      have hfree' : ∀ it ∈ t, dlookup (dinsert es it0.tag it0.modelId) it.tag = none := by
        intro it hit
        rw [dlookup_dinsert_ne es it0.tag it.tag it0.modelId fun h => hne it hit h.symm]
        exact hfree it (List.mem_cons_of_mem _ hit)
      obtain ⟨hlen, hlook⟩ := ih (dinsert es it0.tag it0.modelId) hnodup.2 hfree'
      refine ⟨?_, ?_⟩
      · simp only [List.foldl_cons, List.length_cons]
        rw [hlen, dinsert_length_of_absent es it0.tag it0.modelId hfree0]
        omega
      · intro it hit
        simp only [List.foldl_cons]
        rcases List.mem_cons.mp hit with h | h
        · subst h
          rw [dlookup_foldl_dinsert_of_fresh t it.tag _ hne]
          exact dlookup_dinsert_self es it.tag it.modelId
        · exact hlook it h

/-- C6 counterexample: a config with the duplicate tag `"a"` is accepted —
`set_likelihood` completes normally with a single entry holding the LATER
model (silent dict overwrite), instead of rejecting the definition with a
`DuplicateTag` error as the claim states; `param_needed` even keeps the
shadowed spec's dependencies. -/
theorem setLikelihood_duplicate_overwrites :
    (setLikelihoodE [⟨"a", 0, {"p"}⟩, ⟨"a", 1, {"q"}⟩]).1 = [("a", 1)] ∧
    (setLikelihoodE [⟨"a", 0, {"p"}⟩, ⟨"a", 1, {"q"}⟩]).2 = {"p", "q"} := by
  constructor
  · rfl
  · decide

/-- C6 amended: `set_likelihood` never rejects a duplicate tag — the later
spec silently overwrites the earlier entry — and for every config with
pairwise-distinct tags it registers exactly one entry per spec, each tag
mapping to its spec's model; `param_needed` is the union of all specs'
dependency sets. -/
theorem setLikelihood_distinct_tags (config : List TermSpec)
    (h : (config.map (·.tag)).Nodup) :
    (setLikelihoodE config).1.length = config.length ∧
    (∀ it ∈ config, dlookup (setLikelihoodE config).1 it.tag = some it.modelId) ∧
    (∀ x, x ∈ (setLikelihoodE config).2 ↔ ∃ it ∈ config, x ∈ it.paramNeeded) := by
  unfold setLikelihoodE
  rw [setLikelihoodE_fst, setLikelihoodE_snd]
  obtain ⟨hlen, hlook⟩ :=
    foldl_dinsert_registers config [] h (fun it _ => rfl)
  refine ⟨by rw [hlen]; simp, hlook, ?_⟩
  intro x
  exact (mem_foldl_union (fun it : TermSpec => it.paramNeeded) config ∅ x).trans
    (by simp)

/-- Witness for C6 (amended): a two-spec config with distinct tags
registers two entries. -/
theorem setLikelihood_distinct_tags_witness :
    (setLikelihoodE [⟨"a", 0, {"p"}⟩, ⟨"b", 1, {"q"}⟩]).1.length = 2 := by
  have h := setLikelihood_distinct_tags [⟨"a", 0, {"p"}⟩, ⟨"b", 1, {"q"}⟩] (by decide)
  exact h.1

/-! ## Claim C4: `CombinedProfiledLikelihood.__init__` -/

/-- Intersection accumulator: absorb ranges one at a time into an optional
current range. -/
def interStep : Option (ℚ × ℚ) → List (ℚ × ℚ) → Option (ℚ × ℚ)
  | o, [] => o
  | none, r :: t => interStep (some r) t
  | some a, r :: t => interStep (some (max a.1 r.1, min a.2 r.2)) t

theorem interStep_some (rs : List (ℚ × ℚ)) :
    ∀ a : ℚ × ℚ,
      interStep (some a) rs =
        some (rs.foldl (fun x p => (max x.1 p.1, min x.2 p.2)) a) := by
  induction rs with
  | nil => intro a; rfl
  | cons r t ih => intro a; simp only [interStep, List.foldl_cons]; exact ih _

theorem interStep_none (rs : List (ℚ × ℚ)) : interStep none rs = interAll rs := by
  cases rs with
  | nil => rfl
  | cons r t =>
      simp only [interStep, interAll]
      exact interStep_some t r

theorem dlookup_foldl_addRange (entries : List (String × ℚ × ℚ)) :
    ∀ (acc : List (String × ℚ × ℚ)) (k : String),
      dlookup (entries.foldl addRange acc) k =
        interStep (dlookup acc k)
          ((entries.filter (fun kv => kv.1 = k)).map Prod.snd) := by
  induction entries with
  | nil =>
      intro acc k
      simp only [List.foldl_nil, List.filter_nil, List.map_nil]
      cases dlookup acc k <;> rfl
  | cons e t ih =>
      intro acc k
      simp only [List.foldl_cons]
      rw [ih]
      by_cases hk : e.1 = k
      · subst hk
        rw [List.filter_cons_of_pos (by simp)]
        simp only [List.map_cons]
        cases hl : dlookup acc e.1 with
        | some r =>
            simp only [addRange, hl, dlookup_dinsert_self]
            rfl
        | none =>
            simp only [addRange, hl, dlookup_dinsert_self]
            rfl
      · rw [List.filter_cons_of_neg (by simp [hk])]
        cases hl : dlookup acc e.1 with
        | some r =>
            simp only [addRange, hl]
            rw [dlookup_dinsert_ne _ _ _ _ hk]
        | none =>
            simp only [addRange, hl]
            rw [dlookup_dinsert_ne _ _ _ _ hk]

theorem foldl_addRange_flatten (ls : List Lik) :
    ∀ acc,
      ls.foldl (fun a l => l.paramRange.foldl addRange a) acc =
        (ls.flatMap (·.paramRange)).foldl addRange acc := by
  induction ls with
  | nil => intro acc; rfl
  | cons l t ih =>
      intro acc
      simp only [List.foldl_cons, List.flatMap_cons, List.foldl_append]
      exact ih _

theorem interFold_bounds (rs : List (ℚ × ℚ)) :
    ∀ c r, rs.foldl (fun x p => (max x.1 p.1, min x.2 p.2)) c = r →
      ((r.1 = c.1 ∨ ∃ p ∈ rs, r.1 = p.1) ∧ c.1 ≤ r.1 ∧ ∀ p ∈ rs, p.1 ≤ r.1) ∧
      ((r.2 = c.2 ∨ ∃ p ∈ rs, r.2 = p.2) ∧ r.2 ≤ c.2 ∧ ∀ p ∈ rs, r.2 ≤ p.2) := by
  induction rs with
  | nil =>
      intro c r h
      cases h
      simp
  | cons p0 t ih =>
      intro c r h
      simp only [List.foldl_cons] at h
      obtain ⟨⟨ha, hb, hc⟩, hd, he, hf⟩ := ih (max c.1 p0.1, min c.2 p0.2) r h
      constructor
      · refine ⟨?_, le_trans (le_max_left _ _) hb, ?_⟩
        · rcases ha with ha | ⟨p, hp, hpe⟩
          · rcases max_choice c.1 p0.1 with hm | hm
            · exact Or.inl (ha.trans hm)
            · exact Or.inr ⟨p0, List.mem_cons_self p0 t, ha.trans hm⟩
          · exact Or.inr ⟨p, List.mem_cons_of_mem _ hp, hpe⟩
        · intro p hp
          rcases List.mem_cons.mp hp with hp | hp
          · exact hp ▸ le_trans (le_max_right _ _) hb
          · exact hc p hp
      · refine ⟨?_, le_trans he (min_le_left _ _), ?_⟩
        · rcases hd with hd | ⟨p, hp, hpe⟩
          · rcases min_choice c.2 p0.2 with hm | hm
            · exact Or.inl (hd.trans hm)
            · exact Or.inr ⟨p0, List.mem_cons_self p0 t, hd.trans hm⟩
          · exact Or.inr ⟨p, List.mem_cons_of_mem _ hp, hpe⟩
        · intro p hp
          rcases List.mem_cons.mp hp with hp | hp
          · exact hp ▸ le_trans he (min_le_right _ _)
          · exact hf p hp

/-- C4: the combination has `param_needed` equal to the union of the
members' `param_needed`; its `param_range` at any key equals the
left-to-right intersection of the ranges the members declare for that key
(`none` when no member declares one, the single member's range kept
unchanged when only one does), and any resulting range has its low equal
to the max of the declared lows and its high equal to the min of the
declared highs. A disjoint intersection simply yields a `low > high`
entry, since the construction is total and raises nothing. -/
theorem combined_union_intersection (ls : List Lik) (k : String) :
    (∀ x, x ∈ (combineLikelihoods ls).paramNeeded ↔ ∃ l ∈ ls, x ∈ l.paramNeeded) ∧
    dlookup (combineLikelihoods ls).paramRange k = interAll (collectRanges ls k) ∧
    (∀ r, dlookup (combineLikelihoods ls).paramRange k = some r →
      ((∃ p ∈ collectRanges ls k, r.1 = p.1) ∧ ∀ p ∈ collectRanges ls k, p.1 ≤ r.1) ∧
      ((∃ p ∈ collectRanges ls k, r.2 = p.2) ∧ ∀ p ∈ collectRanges ls k, r.2 ≤ p.2)) := by
  have hrange :
      dlookup (combineLikelihoods ls).paramRange k = interAll (collectRanges ls k) := by
    show dlookup (ls.foldl (fun a l => l.paramRange.foldl addRange a) []) k = _
    rw [foldl_addRange_flatten ls [], dlookup_foldl_addRange]
    exact interStep_none _
  refine ⟨?_, hrange, ?_⟩
  · intro x
    have h := mem_foldl_union (fun l : Lik => l.paramNeeded) ls ∅ x
    simpa using h
  · intro r hr
    rw [hrange] at hr
    cases hcol : collectRanges ls k with
    | nil => rw [hcol] at hr; cases hr
    | cons c t =>
        rw [hcol] at hr
        simp only [interAll, Option.some.injEq] at hr
        obtain ⟨⟨ha, hb, hc⟩, hd, he, hf⟩ := interFold_bounds t c r hr
        constructor
        · refine ⟨?_, ?_⟩
          · rcases ha with ha | ⟨p, hp, hpe⟩
            · exact ⟨c, List.mem_cons_self c t, ha⟩
            · exact ⟨p, List.mem_cons_of_mem _ hp, hpe⟩
          · intro p hp
            rcases List.mem_cons.mp hp with hp | hp
            · exact hp ▸ hb
            · exact hc p hp
        · refine ⟨?_, ?_⟩
          · rcases hd with hd | ⟨p, hp, hpe⟩
            · exact ⟨c, List.mem_cons_self c t, hd⟩
            · exact ⟨p, List.mem_cons_of_mem _ hp, hpe⟩
          · intro p hp
            rcases List.mem_cons.mp hp with hp | hp
            · exact hp ▸ he
            · exact hf p hp

/-- Witness for C4: the specification's example `(0,10) ∩ (5,20) = (5,10)`,
and a disjoint pair `(0,1)`, `(2,3)` yielding the invalid range `(2,1)`
(low > high) with no error. -/
theorem combined_union_intersection_witness :
    dlookup (combineLikelihoods [⟨{"x"}, [("x", ((0 : ℚ), 10))]⟩,
        ⟨{"x"}, [("x", ((5 : ℚ), 20))]⟩]).paramRange "x" = some (5, 10) ∧
    dlookup (combineLikelihoods [⟨∅, [("x", ((0 : ℚ), 1))]⟩,
        ⟨∅, [("x", ((2 : ℚ), 3))]⟩]).paramRange "x" = some (2, 1) := by
  constructor
  · have h := (combined_union_intersection
      [⟨{"x"}, [("x", ((0 : ℚ), 10))]⟩, ⟨{"x"}, [("x", ((5 : ℚ), 20))]⟩] "x").2.1
    rw [h]
    decide
  · have h := (combined_union_intersection
      [⟨∅, [("x", ((0 : ℚ), 1))]⟩, ⟨∅, [("x", ((2 : ℚ), 3))]⟩] "x").2.1
    rw [h]
    decide

/-! ## Claim C5: empty-profile short-circuit -/

/-- C5: with an empty profiled-guess dict, `profiled_loglikelihood` is
exactly `(loglikelihood(param), {})` — the optimizer never runs, so the
result is independent of whatever optimizer is plugged in. -/
theorem profiled_empty_guess {α β : Type} [DecidableEq α]
    (llh : List (String × α) → β)
    (opt opt' : (List α → β) → List α → List α × β)
    (param : List (String × α)) :
    profiledLoglikelihood llh opt param [] = (llh param, []) ∧
    profiledLoglikelihood llh opt param [] =
      profiledLoglikelihood llh opt' param [] := by
  constructor <;> simp [profiledLoglikelihood]

/-! ## Claim C7: `chi2` before `set_max_loglikelihood` -/

/-- C7: when `max_loglikelihood` has never been set, `chi2` fails fast by
raising (`AttributeError` on the missing attribute, the code's stand-in
for `StaleMaximumUsed`); it never returns a numeric likelihood-ratio
value. -/
theorem chi2_before_set_max (st : PLState) (h : st.maxLoglikelihood = none)
    (llh : List (String × ℚ) → ℚ)
    (opt : (List ℚ → ℚ) → List ℚ → List ℚ × ℚ)
    (param guess : List (String × ℚ)) :
    chi2 st llh opt param guess = .error (.attributeError "max_loglikelihood") ∧
    ∀ r : ℚ, chi2 st llh opt param guess ≠ .ok r := by
  unfold chi2
  rw [h]
  exact ⟨rfl, fun r hr => by cases hr⟩

/-- Witness for C7: the freshly-constructed state (attribute absent). -/
theorem chi2_before_set_max_witness :
    chi2 ⟨none⟩ (fun _ => 0) (fun f x0 => (x0, f x0)) [] [] =
      .error (.attributeError "max_loglikelihood") :=
  (chi2_before_set_max ⟨none⟩ rfl (fun _ => 0) (fun f x0 => (x0, f x0)) [] []).1

/-! ## Claim C9: data/parameter merge precedence -/

/-- C9: the closure installed by `set_data` evaluates the likelihood body
on `_make_param(data, param)`, and in that merged dict the caller-supplied
parameter value wins over the bound data value on every shared key (data
first, parameters overlaid second). -/
theorem setData_param_precedence (terms : List (List (String × ℝ) → ℝ))
    (pr : List (String × ℝ × ℝ)) (data param : List (String × ℝ))
    (hd : (dkeys data).Nodup) (hp : (dkeys param).Nodup) :
    setDataLLH terms pr data param =
      auxLLH pr (makeParam [data, param]) +
        (terms.map (fun t => t (makeParam [data, param]))).sum ∧
    ∀ k, dlookup (makeParam [data, param]) k =
      (dlookup param k).orElse (fun _ => dlookup data k) := by
  refine ⟨rfl, ?_⟩
  intro k
  show dlookup (dupdate (dupdate [] data) param) k = _
  rw [dlookup_dupdate _ _ _ hp, dlookup_dupdate _ _ _ hd]
  cases dlookup param k with
  | some v => rfl
  | none =>
      cases dlookup data k with
      | some w => rfl
      | none => rfl

/-- Witness for C9: key `"a"` is bound in the data to `1` and supplied by
the caller as `10`; the merged dict holds `10`. -/
theorem setData_param_precedence_witness :
    dlookup (makeParam [[("a", (1 : ℝ)), ("b", 2)], [("a", (10 : ℝ))]]) "a" =
        (dlookup [("a", (10 : ℝ))] "a").orElse
          (fun _ => dlookup [("a", (1 : ℝ)), ("b", 2)] "a") ∧
    (dlookup [("a", (10 : ℝ))] "a").orElse
        (fun _ => dlookup [("a", (1 : ℝ)), ("b", 2)] "a") = some 10 :=
  ⟨((setData_param_precedence [] [] [("a", (1 : ℝ)), ("b", 2)] [("a", (10 : ℝ))]
      (by decide) (by decide)).2 "a"),
   rfl⟩

/-! ## Claim C10: the profiling closure never mutates the caller's dict -/

theorem getD_append_lt {γ : Type} (l l' : List γ) :
    ∀ (n : ℕ) (d : γ), n < l.length → (l ++ l').getD n d = l.getD n d := by
  induction l with
  | nil => intro n d h; cases h
  | cons x t ih =>
      intro n d h
      cases n with
      | zero => rfl
      | succ m =>
          simp only [List.cons_append, List.getD_cons_succ]
          exact ih m d (Nat.lt_of_succ_lt_succ h)

theorem getD_set_ne {γ : Type} (l : List γ) :
    ∀ (i n : ℕ) (a d : γ), i ≠ n → (l.set i a).getD n d = l.getD n d := by
  induction l with
  | nil => intro i n a d _; rfl
  | cons x t ih =>
      intro i n a d h
      cases i with
      | zero =>
          cases n with
          | zero => exact absurd rfl h
          | succ m => rfl
      | succ j =>
          cases n with
          | zero => rfl
          | succ m =>
              simp only [List.set_cons_succ, List.getD_cons_succ]
              exact ih j m a d fun he => h (by rw [he])

theorem objectiveCall_frame {α β : Type} (llh : List (String × α) → β)
    (h : Heap α) (pref : ℕ) (keys : List String) (arr : List α)
    (hp : pref < h.cells.length) :
    ((objectiveCall llh h pref keys arr).1).get pref = h.get pref ∧
    ((objectiveCall llh h pref keys arr).1).cells.length = h.cells.length + 1 := by
  constructor
  · show ((h.cells ++ [h.get pref]).set h.cells.length _).getD pref [] = _
    rw [getD_set_ne _ _ _ _ _ (Nat.ne_of_gt hp)]
    exact getD_append_lt _ _ _ _ hp
  · show ((h.cells ++ [h.get pref]).set h.cells.length _).length = _
    rw [List.length_set, List.length_append]
    rfl

/-- C10: however many times the optimizer probes the profiling closure
`f` (which runs `x = deepcopy(param); x.update(...)`), the caller's
parameter dict object is left exactly as it was: no key is added, removed
or rebound. -/
theorem profiling_preserves_caller_dict {α β : Type}
    (llh : List (String × α) → β) (h : Heap α) (pref : ℕ)
    (keys : List String) (arrs : List (List α))
    (hp : pref < h.cells.length) :
    (runOptimizerCalls llh h pref keys arrs).get pref = h.get pref ∧
    ∀ k, dlookup ((runOptimizerCalls llh h pref keys arrs).get pref) k =
      dlookup (h.get pref) k := by
  have main :
      (runOptimizerCalls llh h pref keys arrs).get pref = h.get pref := by
    induction arrs generalizing h with
    | nil => rfl
    | cons arr rest ih =>
        obtain ⟨hg, hl⟩ := objectiveCall_frame llh h pref keys arr hp
        show (runOptimizerCalls llh (objectiveCall llh h pref keys arr).1
            pref keys rest).get pref = h.get pref
        rw [ih (objectiveCall llh h pref keys arr).1 (by omega)]
        exact hg
  exact ⟨main, fun k => by rw [main]⟩

/-- Witness for C10: a one-cell heap holding the caller's dict, probed
once; the cell is unchanged. -/
theorem profiling_preserves_caller_dict_witness :
    (runOptimizerCalls (fun _ => (0 : ℚ)) ⟨[[("a", (1 : ℚ))]]⟩ 0 ["a"] [[5]]).get 0 =
      Heap.get ⟨[[("a", (1 : ℚ))]]⟩ 0 :=
  (profiling_preserves_caller_dict (fun _ => (0 : ℚ)) ⟨[[("a", (1 : ℚ))]]⟩ 0 ["a"]
    [[5]] Nat.zero_lt_one).1

end Inference
